import Mathlib

/-!
# Verification of `ved` (vidar-python) recording core

Shallow embedding of `src/ved/movie.py` and `src/ved/node/audio.py`.

Conventions:
* Python floats are IEEE-754 binary64 values; every such value is a rational
  number.  Properties about idealized (exact) arithmetic are stated over `ℚ`;
  where float *rounding* matters, values are modelled as dyadic numbers
  (structure `F` below) with an explicit round-to-nearest, ties-to-even model
  (`roundF`), and operations that are exact in binary64 (comparisons, `fmod`)
  are modelled exactly.
* Python ints are `ℕ`/`ℤ`.
* Fallible code returns `Except`; dynamic attribute access returns `Option`.
-/

set_option maxHeartbeats 1000000
set_option maxRecDepth 4000

namespace Ved

/-! ## `gcd` and `lcm` (movie.py lines 243-250)

```python
def gcd(a, b):
    if a == 0:
        return b
    return gcd(b % a, a)

def lcm(a, b):
    return (a * b) / gcd(a, b)
```

The recursion strictly decreases the first argument (`b % a < a`), so we embed
it with an explicit fuel equal to the first argument, which keeps the
definition structurally recursive (hence kernel-evaluable); `gcd_eq_nat_gcd`
shows the fuel never runs out.
-/

def gcdAux : ℕ → ℕ → ℕ → ℕ
  | _, 0, b => b
  | 0, _ + 1, _ => 0   -- dead branch: the fuel bounds the first argument
  | fuel + 1, a + 1, b => gcdAux fuel (b % (a + 1)) (a + 1)

/-- `gcd` from `movie.py`: `if a == 0: return b; return gcd(b % a, a)`. -/
def gcd (a b : ℕ) : ℕ := gcdAux a a b

theorem gcdAux_eq_nat_gcd : ∀ (fuel a b : ℕ), a ≤ fuel → gcdAux fuel a b = Nat.gcd a b
  | fuel, 0, b, _ => by cases fuel <;> simp [gcdAux, Nat.gcd_zero_left]
  | fuel + 1, a + 1, b, h => by
    rw [gcdAux, Nat.gcd_succ]
    exact gcdAux_eq_nat_gcd fuel (b % (a + 1)) (a + 1)
      (by have h1 : b % (a + 1) < a + 1 := Nat.mod_lt b (by omega); omega)

theorem gcd_eq_nat_gcd (a b : ℕ) : gcd a b = Nat.gcd a b :=
  gcdAux_eq_nat_gcd a a b le_rfl

/-- Source `lcm` from `movie.py`, idealized: `(a * b) / gcd(a, b)` is Python 3
*true* division, embedded here as the exact rational quotient.  Binary64 true
division is exact only while the integer product stays below `2 ^ 53`; the
faithful float version is `lcmFloat` below, and `lcm_float_not_common_multiple`
shows the two diverge at `a * b > 2 ^ 53`. -/
def lcm (a b : ℕ) : ℚ := ((a * b : ℕ) : ℚ) / ((gcd a b : ℕ) : ℚ)

theorem lcm_eq_nat_lcm (a b : ℕ) (ha : 0 < a) (_hb : 0 < b) :
    lcm a b = (Nat.lcm a b : ℚ) := by
  have hg : 0 < Nat.gcd a b := Nat.gcd_pos_of_pos_left b ha
  have hdvd : Nat.gcd a b ∣ a * b := Dvd.dvd.mul_right (Nat.gcd_dvd_left a b) b
  rw [lcm, gcd_eq_nat_gcd, ← Nat.cast_div hdvd (by exact_mod_cast hg.ne')]
  rfl

theorem lcm_pos (a b : ℕ) (ha : 0 < a) (hb : 0 < b) : 0 < lcm a b := by
  rw [lcm_eq_nat_lcm a b ha hb]
  exact_mod_cast Nat.pos_of_ne_zero (Nat.lcm_ne_zero ha.ne' hb.ne')

/-! ## The `_record_frames` loop (movie.py lines 136-190)

```python
increment = lcm(frame_rate, sample_rate)
self.current_time = start_time
progress = 0
while self.current_time <= end_time:
    self.tick()
    if progress % (float(increment) / sample_rate) == 0:
        ... capture one audio sample per channel per audio-output node ...
    if progress % (float(increment) / frame_rate) == 0:
        ... capture one video frame ...
    self.current_time += 1.0 / increment
    progress += 1
```

The payloads (pixel bytes, per-node sample buffers) are delegated to external
collaborators (pyglet, the sample encoder modelled separately below), so this
embedding keeps the two capture *event counters*; `current_time` is the
Python-float clock.  Two clock semantics are embedded: `stepExact` advances the
clock in exact arithmetic (the spec's idealization), and `stepFloat` below
advances it with IEEE-754 binary64 rounding exactly as the Python code does.
-/

/-- Python float `%` (C `fmod`) for the non-negative operands used here: the
result is exact in IEEE-754, so it is modelled exactly as `x - ⌊x / m⌋ * m`. -/
def pymod (x m : ℚ) : ℚ := x - ⌊x / m⌋ * m

/-- State of the `_record_frames` loop.  `frames` and `audio` count the
frame-capture and audio-capture events. -/
structure RecState where
  current_time : ℚ
  progress : ℕ
  frames : ℕ
  audio : ℕ
deriving Repr, DecidableEq

/-- The capture condition `progress % (float(increment) / rate) == 0`. -/
def fires (increment rate : ℚ) (p : ℕ) : Bool := pymod (p : ℚ) (increment / rate) == 0

/-- One iteration of the `_record_frames` body, with the clock advanced in
exact arithmetic (`current_time += 1.0 / increment` without rounding). -/
def stepExact (increment : ℚ) (frame_rate sample_rate : ℕ) (s : RecState) : RecState :=
  { current_time := s.current_time + 1 / increment
    progress := s.progress + 1
    audio := s.audio + (if fires increment (sample_rate : ℚ) s.progress then 1 else 0)
    frames := s.frames + (if fires increment (frame_rate : ℚ) s.progress then 1 else 0) }

/-- The `while self.current_time <= end_time` loop, exact-clock variant. -/
def recordLoopExact (end_time increment : ℚ) (frame_rate sample_rate : ℕ)
    (hinc : 0 < increment) (s : RecState) : RecState :=
  if s.current_time ≤ end_time then
    recordLoopExact end_time increment frame_rate sample_rate hinc
      (stepExact increment frame_rate sample_rate s)
  else s
termination_by (⌊(end_time - s.current_time) * increment⌋ + 1).toNat
decreasing_by
  rename_i h
  have hne : increment ≠ 0 := ne_of_gt hinc
  have key : (end_time - (stepExact increment frame_rate sample_rate s).current_time)
      * increment = (end_time - s.current_time) * increment - 1 := by
    simp only [stepExact]
    field_simp
    ring
  rw [key, show ((end_time - s.current_time) * increment - 1 : ℚ)
      = (end_time - s.current_time) * increment - (1 : ℤ) by push_cast; ring,
    Int.floor_sub_int]
  have h0 : (0 : ℤ) ≤ ⌊(end_time - s.current_time) * increment⌋ :=
    Int.floor_nonneg.2 (mul_nonneg (by linarith) hinc.le)
  omega

/-- `_record_frames` (exact-clock variant): counters after running the loop
from `start_time` with `increment = lcm(frame_rate, sample_rate)`. -/
def recordFramesExact (start_time end_time : ℚ) (frame_rate sample_rate : ℕ)
    (hfr : 0 < frame_rate) (hsr : 0 < sample_rate) : RecState :=
  recordLoopExact end_time (lcm frame_rate sample_rate) frame_rate sample_rate
    (lcm_pos frame_rate sample_rate hfr hsr) ⟨start_time, 0, 0, 0⟩

/-- Number of loop iterations that remain when the clock reads `c`. -/
def stepsLeft (end_time increment c : ℚ) : ℕ :=
  if c ≤ end_time then (⌊(end_time - c) * increment⌋ + 1).toNat else 0

/-- `countHits f p n` counts `j < n` with `f (p + j)`. -/
def countHits (f : ℕ → Bool) : ℕ → ℕ → ℕ
  | _, 0 => 0
  | p, n + 1 => (if f p then 1 else 0) + countHits f (p + 1) n

theorem stepsLeft_succ (end_time increment c : ℚ) (hinc : 0 < increment)
    (h : c ≤ end_time) :
    stepsLeft end_time increment c = stepsLeft end_time increment (c + 1 / increment) + 1 := by
  have hne : increment ≠ 0 := ne_of_gt hinc
  have key : (end_time - (c + 1 / increment)) * increment
      = (end_time - c) * increment - (1 : ℤ) := by push_cast; field_simp; ring
  have h0 : (0 : ℤ) ≤ ⌊(end_time - c) * increment⌋ :=
    Int.floor_nonneg.2 (mul_nonneg (by linarith) hinc.le)
  by_cases h2 : c + 1 / increment ≤ end_time
  · rw [stepsLeft, stepsLeft, if_pos h, if_pos h2, key, Int.floor_sub_int]
    have h1 : (0 : ℤ) ≤ ⌊(end_time - (c + 1 / increment)) * increment⌋ := by
      refine Int.floor_nonneg.2 (mul_nonneg (by linarith) hinc.le)
    rw [key, Int.floor_sub_int] at h1
    omega
  · rw [stepsLeft, stepsLeft, if_pos h, if_neg h2]
    have hlt : (end_time - c) * increment < 1 := by
      have : end_time - c < 1 / increment := by linarith [lt_of_not_le h2]
      calc (end_time - c) * increment < (1 / increment) * increment :=
            (mul_lt_mul_right hinc).2 this
        _ = 1 := by field_simp
    have : ⌊(end_time - c) * increment⌋ = 0 :=
      Int.floor_eq_zero_iff.2 ⟨Int.floor_nonneg.1 h0, hlt⟩
    omega

/-- Closed form of the exact-clock loop: total iterations, final clock, and the
two event counts as `countHits` of the capture conditions. -/
theorem recordLoopExact_spec (end_time increment : ℚ) (frame_rate sample_rate : ℕ)
    (hinc : 0 < increment) (s : RecState) :
    recordLoopExact end_time increment frame_rate sample_rate hinc s =
      { current_time := s.current_time
          + (stepsLeft end_time increment s.current_time : ℚ) / increment
        progress := s.progress + stepsLeft end_time increment s.current_time
        frames := s.frames + countHits (fires increment (frame_rate : ℚ)) s.progress
          (stepsLeft end_time increment s.current_time)
        audio := s.audio + countHits (fires increment (sample_rate : ℚ)) s.progress
          (stepsLeft end_time increment s.current_time) } := by
  generalize hn : stepsLeft end_time increment s.current_time = n
  induction n generalizing s with
  | zero =>
    have hcond : ¬ s.current_time ≤ end_time := by
      intro h
      rw [stepsLeft_succ end_time increment s.current_time hinc h] at hn
      omega
    rw [recordLoopExact, if_neg hcond]
    cases s
    simp [countHits]
  | succ n ih =>
    have hcond : s.current_time ≤ end_time := by
      by_contra h
      rw [stepsLeft, if_neg h] at hn
      omega
    have hstep : stepsLeft end_time increment
        (stepExact increment frame_rate sample_rate s).current_time = n := by
      have := stepsLeft_succ end_time increment s.current_time hinc hcond
      rw [hn] at this
      simpa [stepExact] using this.symm
    rw [recordLoopExact, if_pos hcond, ih _ hstep]
    have hne : increment ≠ 0 := ne_of_gt hinc
    simp only [stepExact, countHits]
    simp only [RecState.mk.injEq]
    refine ⟨?_, by omega, by omega, by omega⟩
    push_cast
    field_simp
    ring

theorem countHits_eq_sum (f : ℕ → Bool) (p n : ℕ) :
    countHits f p n = ∑ j ∈ Finset.range n, (if f (p + j) then 1 else 0) := by
  induction n generalizing p with
  | zero => simp [countHits]
  | succ n ih =>
    rw [countHits, ih (p + 1), Finset.sum_range_succ']
    have h1 : ∀ j, p + 1 + j = p + (j + 1) := fun j => by omega
    simp only [h1, Nat.add_zero]
    exact Nat.add_comm _ _

theorem card_filter_dvd_range (L M : ℕ) :
    ((Finset.range (M + 1)).filter (fun x => L ∣ x)).card = M / L + 1 := by
  rw [Finset.range_eq_Ico, Nat.Ico_succ_right, ← Finset.Ioc_insert_left (Nat.zero_le M),
    Finset.filter_insert, if_pos (dvd_zero L),
    Finset.card_insert_of_not_mem (by simp), Nat.Ioc_filter_dvd_card_eq_div]

theorem fires_eq_decide_dvd (increment : ℚ) (rate L : ℕ) (hL : 0 < L)
    (hLr : increment / (rate : ℚ) = (L : ℚ)) (p : ℕ) :
    fires increment (rate : ℚ) p = decide (L ∣ p) := by
  have hL0 : (L : ℚ) ≠ 0 := by exact_mod_cast hL.ne'
  by_cases h : L ∣ p
  · obtain ⟨k, hk⟩ := id h
    have hdiv : (p : ℚ) / (L : ℚ) = (k : ℚ) := by rw [hk]; push_cast; field_simp
    have hz : pymod (p : ℚ) (L : ℚ) = 0 := by
      rw [pymod, hdiv, Int.floor_natCast, hk]
      push_cast
      ring
    simp [fires, hLr, hz, h]
  · have hnz : pymod (p : ℚ) (L : ℚ) ≠ 0 := by
      intro h0
      apply h
      rw [pymod, sub_eq_zero] at h0
      have hz : (p : ℤ) = ⌊(p : ℚ) / (L : ℚ)⌋ * (L : ℤ) := by exact_mod_cast h0
      have : (L : ℤ) ∣ (p : ℤ) := Dvd.intro _ (by linarith [hz])
      exact_mod_cast this
    simp [fires, hLr, hnz, h]

theorem stepsLeft_start (start_time end_time increment : ℚ)
    (h : start_time ≤ end_time) (hinc : 0 < increment) :
    stepsLeft end_time increment start_time
      = ⌊(end_time - start_time) * increment⌋₊ + 1 := by
  rw [stepsLeft, if_pos h, ← Int.floor_toNat]
  have h0 : (0 : ℤ) ≤ ⌊(end_time - start_time) * increment⌋ :=
    Int.floor_nonneg.2 (mul_nonneg (by linarith) hinc.le)
  omega

/-- Number of capture events for one rate `r` over `M + 1` iterations of the
exact-clock loop, when `increment = lcm frame_rate sample_rate` and
`r` divides `Nat.lcm frame_rate sample_rate`. -/
theorem countHits_capture (fr sr r : ℕ) (hfr : 0 < fr) (hsr : 0 < sr)
    (hr : 0 < r) (hdvd : r ∣ Nat.lcm fr sr) (M : ℕ) :
    countHits (fires (lcm fr sr) (r : ℚ)) 0 (M + 1) = M / (Nat.lcm fr sr / r) + 1 := by
  set L := Nat.lcm fr sr / r with hLdef
  have hlcm_pos : 0 < Nat.lcm fr sr := Nat.pos_of_ne_zero (Nat.lcm_ne_zero hfr.ne' hsr.ne')
  have hL : 0 < L := Nat.div_pos (Nat.le_of_dvd hlcm_pos hdvd) hr
  have hLr : lcm fr sr / (r : ℚ) = (L : ℚ) := by
    rw [lcm_eq_nat_lcm fr sr hfr hsr, hLdef,
      Nat.cast_div hdvd (by exact_mod_cast hr.ne')]
  have hf : ∀ p, fires (lcm fr sr) (r : ℚ) p = decide (L ∣ p) :=
    fires_eq_decide_dvd (lcm fr sr) r L hL hLr
  calc countHits (fires (lcm fr sr) (r : ℚ)) 0 (M + 1)
      = ∑ j ∈ Finset.range (M + 1), (if L ∣ j then 1 else 0) := by
        rw [countHits_eq_sum]
        exact Finset.sum_congr rfl fun j _ => by rw [Nat.zero_add, hf j]; simp
    _ = ((Finset.range (M + 1)).filter (fun x => L ∣ x)).card := by
        simp [Finset.sum_boole]
    _ = M / L + 1 := card_filter_dvd_range L M

/-- `⌊D * lcm⌋ / (lcm / r) = ⌊D * r⌋` for `r ∣ lcm`: dividing the fine-grained
step count by the capture period gives the per-rate count. -/
theorem floor_mul_lcm_div (D : ℚ) (lcmN r : ℕ) (hr : 0 < r) (hdvd : r ∣ lcmN)
    (hl : 0 < lcmN) : ⌊D * (lcmN : ℚ)⌋₊ / (lcmN / r) = ⌊D * (r : ℚ)⌋₊ := by
  set L := lcmN / r with hLdef
  have hL : 0 < L := Nat.div_pos (Nat.le_of_dvd hl hdvd) hr
  have hrl : lcmN = L * r := by
    rw [hLdef, Nat.div_mul_cancel hdvd]
  have : D * (lcmN : ℚ) = (D * (r : ℚ)) * (L : ℚ) := by
    rw [hrl]; push_cast; ring
  rw [this, ← Nat.floor_div_nat (D * (r : ℚ) * (L : ℚ)) L,
    mul_div_assoc, div_self (by exact_mod_cast hL.ne'), mul_one]

/-- C1 (amended): with the loop clock advanced in exact arithmetic, a recording
window `[start_time, end_time]` produces exactly `⌊D * frame_rate⌋ + 1`
frame-capture events and `⌊D * sample_rate⌋ + 1` audio-capture events
(`D = end_time - start_time`), independent of the magnitude of `increment`. -/
theorem recordFramesExact_event_counts (start_time end_time : ℚ) (fr sr : ℕ)
    (hfr : 0 < fr) (hsr : 0 < sr) (hse : start_time ≤ end_time) :
    (recordFramesExact start_time end_time fr sr hfr hsr).frames
        = ⌊(end_time - start_time) * (fr : ℚ)⌋₊ + 1 ∧
      (recordFramesExact start_time end_time fr sr hfr hsr).audio
        = ⌊(end_time - start_time) * (sr : ℚ)⌋₊ + 1 := by
  have hinc : 0 < lcm fr sr := lcm_pos fr sr hfr hsr
  have hlcm_pos : 0 < Nat.lcm fr sr := Nat.pos_of_ne_zero (Nat.lcm_ne_zero hfr.ne' hsr.ne')
  have hN : stepsLeft end_time (lcm fr sr) start_time
      = ⌊(end_time - start_time) * (Nat.lcm fr sr : ℚ)⌋₊ + 1 := by
    rw [stepsLeft_start start_time end_time (lcm fr sr) hse hinc,
      lcm_eq_nat_lcm fr sr hfr hsr]
  rw [recordFramesExact, recordLoopExact_spec]
  constructor
  · simp only [hN]
    rw [countHits_capture fr sr fr hfr hsr hfr (Nat.dvd_lcm_left fr sr),
      floor_mul_lcm_div (end_time - start_time) (Nat.lcm fr sr) fr hfr
        (Nat.dvd_lcm_left fr sr) hlcm_pos]
    omega
  · simp only [hN]
    rw [countHits_capture fr sr sr hfr hsr hsr (Nat.dvd_lcm_right fr sr),
      floor_mul_lcm_div (end_time - start_time) (Nat.lcm fr sr) sr hsr
        (Nat.dvd_lcm_right fr sr) hlcm_pos]
    omega

theorem recordFramesExact_event_counts_witness :
    (recordFramesExact 0 10 24 48000 (by decide) (by decide)).frames = 241 ∧
      (recordFramesExact 0 10 24 48000 (by decide) (by decide)).audio = 480001 ∧
      (recordFramesExact 0 10 25 44100 (by decide) (by decide)).frames = 251 ∧
      (recordFramesExact 0 10 25 44100 (by decide) (by decide)).audio = 441001 := by
  have h1 := recordFramesExact_event_counts 0 10 24 48000 (by decide) (by decide) (by norm_num)
  have h2 := recordFramesExact_event_counts 0 10 25 44100 (by decide) (by decide) (by norm_num)
  refine ⟨h1.1.trans ?_, h1.2.trans ?_, h2.1.trans ?_, h2.2.trans ?_⟩ <;> norm_num

/-- C2 (amended): the implementation accumulates `current_time += 1.0 /
increment` across steps (movie.py line 186) and never resynchronizes the clock
from `progress`; under exact arithmetic the accumulated clock nevertheless
equals `start_time + progress / increment` at every step.  (Under the real
float semantics it does not: see `float_clock_drifts_from_progress`.) -/
theorem stepExact_clock_eq_progress_div (start_time increment : ℚ)
    (frame_rate sample_rate : ℕ) (hinc : increment ≠ 0) (n : ℕ) :
    ((stepExact increment frame_rate sample_rate)^[n] ⟨start_time, 0, 0, 0⟩).current_time
      = start_time
        + (((stepExact increment frame_rate sample_rate)^[n]
            ⟨start_time, 0, 0, 0⟩).progress : ℚ) / increment := by
  have key : ∀ m : ℕ,
      ((stepExact increment frame_rate sample_rate)^[m] ⟨start_time, 0, 0, 0⟩).current_time
        = start_time + (m : ℚ) / increment
      ∧ ((stepExact increment frame_rate sample_rate)^[m]
          ⟨start_time, 0, 0, 0⟩).progress = m := by
    intro m
    induction m with
    | zero => simp
    | succ m ih =>
      rw [Function.iterate_succ_apply']
      refine ⟨?_, ?_⟩
      · show ((stepExact increment frame_rate sample_rate) _).current_time = _
        rw [stepExact, ih.1]
        push_cast
        field_simp
        ring
      · show ((stepExact increment frame_rate sample_rate) _).progress = _
        rw [stepExact, ih.2]
  rw [(key n).1, (key n).2]

theorem stepExact_clock_eq_progress_div_witness :
    (10 : ℚ) ≠ 0 ∧
      ((stepExact 10 10 10)^[10] ⟨0, 0, 0, 0⟩).current_time
        = 0 + (((stepExact 10 10 10)^[10] ⟨0, 0, 0, 0⟩).progress : ℚ) / 10 :=
  ⟨by norm_num, stepExact_clock_eq_progress_div 0 10 10 10 (by norm_num) 10⟩

/-! ## IEEE-754 binary64 model

The Python code runs the clock in binary64 floats.  A float is modelled as a
dyadic number `m * 2 ^ e` with `m : ℕ` (every value that arises in this
development is non-negative and far inside the normal range; overflow and
subnormals are not modelled).  `roundF` is round-to-nearest, ties-to-even at 53
significant bits; `fadd`/`fdivRound` are the correctly-rounded addition and
division that IEEE-754 (and hence CPython) prescribes.  Everything is pure
`ℕ`/`ℤ` arithmetic so the kernel can evaluate it.
-/

/-- Bit length of a natural number (`⌊log2 n⌋ + 1` for `n > 0`), with explicit
fuel (the argument halves each step, so fuel `n` suffices). -/
def nbitsAux : ℕ → ℕ → ℕ
  | _, 0 => 0
  | 0, _ + 1 => 0   -- dead branch: the fuel bounds the argument
  | fuel + 1, n + 1 => nbitsAux fuel ((n + 1) / 2) + 1

def nbits (n : ℕ) : ℕ := nbitsAux n n

/-- A non-negative binary64 value `m * 2 ^ e`. -/
structure F where
  m : ℕ
  e : ℤ
deriving Repr, DecidableEq

/-- The rational value denoted by a dyadic float. -/
def F.val (f : F) : ℚ :=
  if 0 ≤ f.e then ((f.m * 2 ^ f.e.toNat : ℕ) : ℚ)
  else (f.m : ℚ) / ((2 ^ (-f.e).toNat : ℕ) : ℚ)

/-- Round to nearest binary64 (53-bit significand), ties to even. -/
def roundF (a : F) : F :=
  let k := nbits a.m
  if k ≤ 53 then a
  else
    let s := k - 53
    let top := a.m / 2 ^ s
    let low := a.m % 2 ^ s
    let half := 2 ^ (s - 1)
    let m' :=
      if half < low then top + 1
      else if low < half then top
      else if top % 2 = 0 then top else top + 1
    ⟨m', a.e + s⟩

/-- Exact sum of two dyadic floats (before rounding). -/
def addX (a b : F) : F :=
  if a.e ≤ b.e then ⟨a.m + b.m * 2 ^ (b.e - a.e).toNat, a.e⟩
  else ⟨a.m * 2 ^ (a.e - b.e).toNat + b.m, b.e⟩

/-- Correctly-rounded binary64 addition. -/
def fadd (a b : F) : F := roundF (addX a b)

/-- Correctly-rounded binary64 division (also the semantics of Python's
int/int true division, which is correctly rounded on the exact quotient).
Callers guarantee `b.m ≠ 0`. -/
def fdivRound (a b : F) : F :=
  if a.m = 0 then ⟨0, 0⟩
  else
    let S := 64 + nbits b.m
    let q := a.m * 2 ^ S / b.m
    let r := a.m * 2 ^ S % b.m
    let s := nbits q - 53
    let top := q / 2 ^ s
    let low := q % 2 ^ s
    let half := 2 ^ (s - 1)
    let m' :=
      if half < low then top + 1
      else if low < half then top
      else if r ≠ 0 then top + 1
      else if top % 2 = 0 then top else top + 1
    ⟨m', a.e - b.e - S + s⟩

/-- Float comparison `a <= b` (exact on the denoted values). -/
def fle (a b : F) : Bool :=
  if a.e ≤ b.e then a.m ≤ b.m * 2 ^ (b.e - a.e).toNat
  else a.m * 2 ^ (a.e - b.e).toNat ≤ b.m

/-- `fmod(x, m) == 0.0`: C `fmod` is exact, and for non-negative operands
`fmod(x, m) = 0` iff the value of `m` divides the value of `x`. -/
def fmodIsZero (x mo : F) : Bool :=
  let e' := if x.e ≤ mo.e then x.e else mo.e
  x.m * 2 ^ (x.e - e').toNat % (mo.m * 2 ^ (mo.e - e').toNat) == 0

/-- `float(n)` conversion of a Python int. -/
def floatOfNat (n : ℕ) : F := roundF ⟨n, 0⟩

/-- Source `lcm` under the faithful float semantics: the exact integer product
`a * b` divided by `gcd(a, b)` with correctly-rounded binary64 true
division. -/
def lcmFloat (a b : ℕ) : F := fdivRound ⟨a * b, 0⟩ ⟨gcd a b, 0⟩

/-- State of the `_record_frames` loop with the faithful float clock. -/
structure RecStateF where
  current_time : F
  progress : ℕ
  frames : ℕ
  audio : ℕ
deriving Repr, DecidableEq

/-- One iteration of the `_record_frames` body under float semantics:
`self.current_time += 1.0 / increment` rounds at the division and at the
addition; `progress % (float(increment) / rate)` rounds the int-to-float
conversions and the division, while `%` itself is exact. -/
def stepFloat (increment : F) (frame_rate sample_rate : ℕ) (s : RecStateF) : RecStateF :=
  { current_time := fadd s.current_time (fdivRound ⟨1, 0⟩ increment)
    progress := s.progress + 1
    audio := s.audio + (if fmodIsZero (floatOfNat s.progress)
      (fdivRound increment (floatOfNat sample_rate)) then 1 else 0)
    frames := s.frames + (if fmodIsZero (floatOfNat s.progress)
      (fdivRound increment (floatOfNat frame_rate)) then 1 else 0) }

/-- The `while self.current_time <= end_time` loop under float semantics.
Fuelled structural recursion (the float loop need not terminate for adversarial
inputs); when the returned state fails the guard, the fuel was not exhausted
and the result is the loop's true final state. -/
def recordLoopFloat (end_time increment : F) (frame_rate sample_rate : ℕ) :
    ℕ → RecStateF → RecStateF
  | 0, s => s
  | fuel + 1, s =>
    if fle s.current_time end_time then
      recordLoopFloat end_time increment frame_rate sample_rate fuel
        (stepFloat increment frame_rate sample_rate s)
    else s

/-- `_record_frames` under the faithful float semantics;
`increment = lcm(frame_rate, sample_rate)` is itself a float: the source's
`lcm` performs true division `(a * b) / gcd(a, b)`. -/
def recordFramesFloat (start_time end_time : F) (frame_rate sample_rate : ℕ)
    (fuel : ℕ) : RecStateF :=
  recordLoopFloat end_time (lcmFloat frame_rate sample_rate)
    frame_rate sample_rate fuel ⟨start_time, 0, 0, 0⟩

/-- C1 counterexample: at `frame_rate = sample_rate = 5` over the window
`[0, 3]` the float-accumulated clock overshoots `3.0` after 15 additions of
`fl(1/5)` (the partial sum is `3.0000000000000004`), so the loop performs only
15 iterations and produces 15 frame events and 15 audio events — not
`⌊3 * 5⌋ + 1 = 16` as the claim requires for every window.  (The guard is
false in the final state, so the fuel of 32 was not exhausted: the loop exited
by its own condition.) -/
theorem record_frames_misses_boundary_event :
    ¬ (fle (recordFramesFloat ⟨0, 0⟩ ⟨3, 0⟩ 5 5 32).current_time ⟨3, 0⟩ = true) ∧
      (recordFramesFloat ⟨0, 0⟩ ⟨3, 0⟩ 5 5 32).progress = 15 ∧
      (recordFramesFloat ⟨0, 0⟩ ⟨3, 0⟩ 5 5 32).frames = 15 ∧
      (recordFramesFloat ⟨0, 0⟩ ⟨3, 0⟩ 5 5 32).audio = 15 ∧
      (15 : ℕ) ≠ ⌊((3 : ℚ) - 0) * ((5 : ℕ) : ℚ)⌋₊ + 1 := by
  refine ⟨by decide, by decide, by decide, by decide, ?_⟩
  have h5 : ((5 : ℕ) : ℚ) = 5 := by norm_num
  rw [h5, show ((3 : ℚ) - 0) * 5 = ((15 : ℕ) : ℚ) by norm_num, Nat.floor_natCast]
  omega

/-- C2 counterexample: at `frame_rate = sample_rate = 10` (so
`increment = 10.0`, step `fl(1/10)`) the float clock after 10 accumulation
steps reads `0.9999999999999999`, i.e. `9007199254740991 / 2^53`, which differs
from `start_time + progress / increment = 0 + 10 / 10 = 1`: the code
accumulates `current_time += 1.0 / increment` without resynchronizing the
clock from `progress`. -/
theorem float_clock_drifts_from_progress :
    (recordFramesFloat ⟨0, 0⟩ ⟨1, 0⟩ 10 10 10).progress = 10 ∧
      (recordFramesFloat ⟨0, 0⟩ ⟨1, 0⟩ 10 10 10).current_time.val
        ≠ 0 + ((recordFramesFloat ⟨0, 0⟩ ⟨1, 0⟩ 10 10 10).progress : ℚ) / lcm 10 10 := by
  have hstate : recordFramesFloat ⟨0, 0⟩ ⟨1, 0⟩ 10 10 10
      = ⟨⟨9007199254740991, -53⟩, 10, 10, 10⟩ := by decide
  have hlcm : lcm 10 10 = (10 : ℚ) := by
    rw [lcm_eq_nat_lcm 10 10 (by decide) (by decide)]
    norm_num [Nat.lcm]
  refine ⟨by rw [hstate], ?_⟩
  rw [hstate, hlcm]
  show F.val ⟨9007199254740991, -53⟩ ≠ 0 + ((10 : ℕ) : ℚ) / 10
  have h53 : ((53 : ℤ)).toNat = 53 := rfl
  norm_num [F.val, neg_neg, h53]

/-! ## Exactness of the float `lcm` below `2 ^ 53` (claim C5)

The source computes `increment = (a * b) / gcd(a, b)` with binary64 true
division.  The quotient is the integer `Nat.lcm a b`; binary64 division is
exact whenever that integer fits in 53 bits, and rounds otherwise.  The
following lemmas characterize `nbits` and show `fdivRound` returns the exact
quotient of a divisible pair below `2 ^ 53`.
-/

theorem nbitsAux_eq_log : ∀ (fuel n : ℕ), 0 < n → n ≤ fuel →
    nbitsAux fuel n = Nat.log 2 n + 1
  | _, 0, h, _ => absurd h (by omega)
  | 0, _ + 1, _, h => absurd h (by omega)
  | fuel + 1, n + 1, _, h => by
    rw [nbitsAux]
    by_cases h1 : (n + 1) / 2 = 0
    · have hn : n = 0 := by omega
      subst hn
      rw [show (1 : ℕ) / 2 = 0 from rfl, show nbitsAux fuel 0 = 0 from by
        cases fuel <;> rfl]
      simp
    · rw [nbitsAux_eq_log fuel ((n + 1) / 2) (Nat.pos_of_ne_zero h1) (by omega),
        Nat.log_div_base 2 (n + 1)]
      have h2 : 2 ≤ n + 1 := by omega
      have h3 : 0 < Nat.log 2 (n + 1) := Nat.log_pos (by norm_num) h2
      omega

theorem nbits_eq_log (n : ℕ) (h : 0 < n) : nbits n = Nat.log 2 n + 1 :=
  nbitsAux_eq_log n n h le_rfl

theorem nbits_mul_pow2 (n k : ℕ) (h : 0 < n) : nbits (n * 2 ^ k) = nbits n + k := by
  induction k with
  | zero => simp
  | succ k ih =>
    have hpos : 0 < n * 2 ^ k := by positivity
    rw [pow_succ, ← Nat.mul_assoc, nbits_eq_log _ (by positivity),
      Nat.log_mul_base (by norm_num) hpos.ne', ← Nat.add_assoc,
      show Nat.log 2 (n * 2 ^ k) + 1 = nbits (n * 2 ^ k) from
        (nbits_eq_log _ hpos).symm, ih]

theorem nbits_le_of_lt_pow (n m : ℕ) (h : 0 < n) (hlt : n < 2 ^ m) :
    nbits n ≤ m := by
  rw [nbits_eq_log n h]
  have := Nat.log_lt_of_lt_pow h.ne' hlt
  omega

/-- When `B` divides `A = B * N` and the quotient `N` fits in 53 bits, the
correctly-rounded division returns `N` exactly (as the dyadic
`N * 2 ^ (53 - nbits N)` at exponent `nbits N - 53`). -/
theorem fdivRound_exact_rep (B N : ℕ) (hB : 0 < B) (hN : 0 < N)
    (hsize : N < 2 ^ 53) :
    fdivRound ⟨B * N, 0⟩ ⟨B, 0⟩
      = ⟨N * 2 ^ (53 - nbits N), (nbits N : ℤ) - 53⟩ := by
  have hA : (B * N) ≠ 0 := (Nat.mul_pos hB hN).ne'
  have hnN : nbits N ≤ 53 := nbits_le_of_lt_pow N 53 hN hsize
  set S := 64 + nbits B with hS
  set t := 53 - nbits N with ht
  have htS : t ≤ S := by omega
  have hq : B * N * 2 ^ S / B = N * 2 ^ S := by
    rw [Nat.mul_assoc]
    exact Nat.mul_div_cancel_left _ hB
  have hr : B * N * 2 ^ S % B = 0 := by
    rw [Nat.mul_assoc]
    exact Nat.mul_mod_right B _
  have hnq : nbits (N * 2 ^ S) = nbits N + S := nbits_mul_pow2 N S hN
  have hsplit : N * 2 ^ S = N * 2 ^ t * 2 ^ (S - t) := by
    rw [Nat.mul_assoc, ← pow_add]
    congr 2
    omega
  have htop : N * 2 ^ S / 2 ^ (nbits N + S - 53) = N * 2 ^ t := by
    rw [show nbits N + S - 53 = S - t from by omega, hsplit]
    exact Nat.mul_div_cancel _ (Nat.pos_pow_of_pos _ (by norm_num))
  have hlow : N * 2 ^ S % 2 ^ (nbits N + S - 53) = 0 := by
    rw [show nbits N + S - 53 = S - t from by omega, hsplit]
    exact Nat.mul_mod_left _ _
  simp only [fdivRound]
  rw [if_neg hA, hq, hr, hnq, htop, hlow]
  have hhalf : 0 < 2 ^ (nbits N + S - 53 - 1) :=
    Nat.pos_pow_of_pos _ (by norm_num)
  rw [if_neg (by omega), if_pos hhalf]
  have he : (0 : ℤ) - 0 - (S : ℤ) + ((nbits N + S - 53 : ℕ) : ℤ)
      = (nbits N : ℤ) - 53 := by
    have : ((nbits N + S - 53 : ℕ) : ℤ) = (nbits N : ℤ) + S - 53 := by
      omega
    rw [this]
    ring
  rw [he]

theorem fdivRound_exact (B N : ℕ) (hB : 0 < B) (hN : 0 < N)
    (hsize : N < 2 ^ 53) :
    F.val (fdivRound ⟨B * N, 0⟩ ⟨B, 0⟩) = (N : ℚ) := by
  rw [fdivRound_exact_rep B N hB hN hsize]
  have hnN : nbits N ≤ 53 := nbits_le_of_lt_pow N 53 hN hsize
  by_cases hc : nbits N = 53
  · rw [F.val]
    rw [if_pos (by simp [hc])]
    simp [hc]
  · have hlt : (nbits N : ℤ) - 53 < 0 := by omega
    rw [F.val, if_neg (by simpa using not_le.2 hlt)]
    have htn : (-((nbits N : ℤ) - 53)).toNat = 53 - nbits N := by omega
    simp only [htn]
    push_cast
    rw [mul_div_assoc, div_self (by positivity), mul_one]

/-- C5 counterexample: the source computes `lcm` with binary64 true division,
which rounds once the integer product exceeds `2 ^ 53`: for
`frame_rate = 2 ^ 53 + 1` and `sample_rate = 1` (so `gcd = 1`) the program
returns the float `2 ^ 53 = 9007199254740992`, which `frame_rate` does *not*
divide (the true least common multiple is `2 ^ 53 + 1`), refuting the claim
for unrestricted positive integer rates. -/
theorem lcm_float_not_common_multiple :
    F.val (lcmFloat 9007199254740993 1) = ((9007199254740992 : ℕ) : ℚ) ∧
      ¬ (9007199254740993 ∣ 9007199254740992) := by
  constructor
  · have h : lcmFloat 9007199254740993 1 = ⟨4503599627370496, 1⟩ := by decide
    have h1 : ((1 : ℤ)).toNat = 1 := rfl
    rw [h]
    norm_num [F.val, h1]
  · norm_num

/-- C5 (amended): for positive integer rates whose product is below `2 ^ 53`
(true of all realistic rates), `increment = lcm(frame_rate, sample_rate)` as
the source computes it — Euclidean `gcd`, then binary64 true division — is
exactly the least common multiple: a positive integer evenly divisible by
both rates and the smallest such.  (For products of `2 ^ 53` and above the
float division can round: see `lcm_float_not_common_multiple`.) -/
theorem lcmFloat_is_least_common_multiple (a b : ℕ) (ha : 0 < a) (hb : 0 < b)
    (hsize : a * b < 2 ^ 53) :
    ∃ L : ℕ, F.val (lcmFloat a b) = (L : ℚ) ∧ 0 < L ∧ a ∣ L ∧ b ∣ L ∧
      ∀ m : ℕ, 0 < m → a ∣ m → b ∣ m → L ≤ m := by
  have hg : 0 < Nat.gcd a b := Nat.gcd_pos_of_pos_left b ha
  have hlcm : 0 < Nat.lcm a b := Nat.pos_of_ne_zero (Nat.lcm_ne_zero ha.ne' hb.ne')
  have hprod : a * b = Nat.gcd a b * Nat.lcm a b := (Nat.gcd_mul_lcm a b).symm
  have hlsize : Nat.lcm a b < 2 ^ 53 := by
    have hle : Nat.lcm a b ≤ a * b := by
      rw [hprod]
      exact Nat.le_mul_of_pos_left _ hg
    omega
  refine ⟨Nat.lcm a b, ?_, hlcm, Nat.dvd_lcm_left a b, Nat.dvd_lcm_right a b,
    fun m hm h1 h2 => Nat.le_of_dvd hm (Nat.lcm_dvd h1 h2)⟩
  rw [lcmFloat, gcd_eq_nat_gcd, hprod]
  exact fdivRound_exact (Nat.gcd a b) (Nat.lcm a b) hg hlcm hlsize

theorem lcmFloat_is_least_common_multiple_witness :
    ∃ L : ℕ, F.val (lcmFloat 24 48000) = (L : ℚ) ∧ 0 < L ∧ 24 ∣ L ∧ 48000 ∣ L ∧
      ∀ m : ℕ, 0 < m → 24 ∣ m → 48000 ∣ m → L ≤ m :=
  lcmFloat_is_least_common_multiple 24 48000 (by decide) (by decide) (by norm_num)

/-! ## The Sample Encoder (movie.py lines 156-172)

```python
for sample in node.samples:
    if node.sample_size == 8:
        i = int((1 + sample) * (2 ** 7))
        b = struct.pack('<B', i)
    elif node.sample_size == 16:
        i = int(sample * (2 ** 15))
        b = struct.pack('<h', i)
    elif node.sample_size == 24:
        raise NotImplementedError()
    elif node.sample_size == 32:
        i = int(sample * (2 ** 31))
        b = struct.pack('<i', i)
    audio_data[node].write(b)
```

Note there is no `else` branch: for any other width nothing assigns `b`, so
`write(b)` raises an unbound-local error on the first sample and silently
re-writes the stale bytes of the previous sample afterwards.  `struct.pack`
raises `struct.error` for out-of-range values — it does not clamp.
-/

inductive PackError where
  /-- `struct.error`: argument out of range for the format code. -/
  | structError
  /-- `raise NotImplementedError()` for 24-bit samples. -/
  | notImplementedError
  /-- `UnboundLocalError`: `b` referenced before assignment. -/
  | unboundLocalError
  /-- The spec's `InvalidConfiguration` condition; the code never raises it. -/
  | invalidConfiguration
deriving Repr, DecidableEq

instance exceptDecEq {ε α : Type} [DecidableEq ε] [DecidableEq α] :
    DecidableEq (Except ε α) := fun a b =>
  match a, b with
  | .error e1, .error e2 =>
    if h : e1 = e2 then .isTrue (h ▸ rfl) else .isFalse (fun hc => h (Except.error.inj hc))
  | .ok x, .ok y =>
    if h : x = y then .isTrue (h ▸ rfl) else .isFalse (fun hc => h (Except.ok.inj hc))
  | .error _, .ok _ => .isFalse (fun hc => Except.noConfusion hc)
  | .ok _, .error _ => .isFalse (fun hc => Except.noConfusion hc)

/-- Python `int()` on a float value: truncation toward zero. -/
def truncInt (q : ℚ) : ℤ := if q < 0 then -⌊-q⌋ else ⌊q⌋

/-- `struct.pack('<B', i)`: one unsigned byte; raises outside `[0, 255]`. -/
def packUB (i : ℤ) : Except PackError (List ℕ) :=
  if 0 ≤ i ∧ i ≤ 255 then .ok [i.toNat] else .error .structError

/-- `struct.pack('<h', i)`: little-endian signed 16-bit; raises outside
`[-32768, 32767]`. -/
def packH (i : ℤ) : Except PackError (List ℕ) :=
  if -32768 ≤ i ∧ i ≤ 32767 then
    .ok [(i % 65536).toNat % 256, (i % 65536).toNat / 256]
  else .error .structError

/-- `struct.pack('<i', i)`: little-endian signed 32-bit; raises outside
`[-2^31, 2^31 - 1]`. -/
def packI (i : ℤ) : Except PackError (List ℕ) :=
  if -2147483648 ≤ i ∧ i ≤ 2147483647 then
    .ok [(i % 4294967296).toNat % 256, (i % 4294967296).toNat / 256 % 256,
      (i % 4294967296).toNat / 65536 % 256, (i % 4294967296).toNat / 16777216]
  else .error .structError

/-- One pass of the per-channel sample loop body, with the arithmetic
idealized as exact rationals — adequate for the width dispatch and the error
branches (no arithmetic is evaluated at widths 24 and unknown); the
binary64-faithful arithmetic refinement is `encodeSampleF` below.  `prev` is
the value the loop variable `b` holds from the previous iteration (`none` on
the first). -/
def encodeSample (sample_size : ℤ) (sample : ℚ) (prev : Option (List ℕ)) :
    Except PackError (List ℕ) :=
  if sample_size = 8 then packUB (truncInt ((1 + sample) * 2 ^ 7))
  else if sample_size = 16 then packH (truncInt (sample * 2 ^ 15))
  else if sample_size = 24 then .error .notImplementedError
  else if sample_size = 32 then packI (truncInt (sample * 2 ^ 31))
  else
    match prev with
    | none => .error .unboundLocalError
    | some b => .ok b

/-! ### Binary64-faithful sample encoder (claim C3)

An audio sample reaching the encoder is a binary64 float, i.e. a signed
dyadic value with at most 53 significant bits.  `1 + sample` rounds in
binary64 (the sum of two doubles need not be a double); multiplication by the
int `2 ** k` is an exact exponent shift (rounded like every float product,
vacuously); `int()` truncates the exact dyadic value toward zero.
-/

/-- A signed binary64 value `m * 2 ^ e` (samples may be negative, so the
mantissa is an integer here, unlike the non-negative clock values `F`). -/
structure FS where
  m : ℤ
  e : ℤ
deriving Repr, DecidableEq

/-- The rational value denoted by a signed dyadic float. -/
def FS.val (f : FS) : ℚ :=
  if 0 ≤ f.e then (f.m : ℚ) * ((2 ^ f.e.toNat : ℕ) : ℚ)
  else (f.m : ℚ) / ((2 ^ (-f.e).toNat : ℕ) : ℚ)

/-- Round to nearest binary64 (53-bit significand), ties to even, applied to
the magnitude — IEEE-754 round-to-nearest is sign-symmetric. -/
def FS.round (a : FS) : FS :=
  let n := a.m.natAbs
  let k := nbits n
  if k ≤ 53 then a
  else
    let s := k - 53
    let top := n / 2 ^ s
    let low := n % 2 ^ s
    let half := 2 ^ (s - 1)
    let m' :=
      if half < low then top + 1
      else if low < half then top
      else if top % 2 = 0 then top else top + 1
    ⟨if a.m < 0 then -(m' : ℤ) else (m' : ℤ), a.e + s⟩

/-- Exact sum of two signed dyadic floats (before rounding). -/
def FS.addX (a b : FS) : FS :=
  if a.e ≤ b.e then ⟨a.m + b.m * ((2 ^ (b.e - a.e).toNat : ℕ) : ℤ), a.e⟩
  else ⟨a.m * ((2 ^ (a.e - b.e).toNat : ℕ) : ℤ) + b.m, b.e⟩

/-- Correctly-rounded binary64 addition: the Python `1 + sample`. -/
def FS.add (a b : FS) : FS := FS.round (FS.addX a b)

/-- Binary64 multiplication by the integer `2 ** k`: an exact exponent shift,
followed by the (here vacuous) rounding every float product performs. -/
def FS.mulPow2 (a : FS) (k : ℕ) : FS := FS.round ⟨a.m, a.e + k⟩

/-- Python `int()` of a float: the float value is an exact dyadic rational,
truncated toward zero (magnitude division, sign restored). -/
def FS.trunc (a : FS) : ℤ :=
  if 0 ≤ a.e then a.m * ((2 ^ a.e.toNat : ℕ) : ℤ)
  else
    let d := a.m.natAbs / 2 ^ (-a.e).toNat
    if a.m < 0 then -(d : ℤ) else (d : ℤ)

/-- The per-channel sample-encoding body (movie.py lines 156-172) under
faithful binary64 arithmetic: `1 + sample` rounds, `* (2 ** k)` is an exact
shift, `int()` truncates toward zero; the width dispatch, the missing `else`
branch and the `struct.pack` range behavior are as in `encodeSample`. -/
def encodeSampleF (sample_size : ℤ) (sample : FS) (prev : Option (List ℕ)) :
    Except PackError (List ℕ) :=
  if sample_size = 8 then packUB (FS.trunc (FS.mulPow2 (FS.add ⟨1, 0⟩ sample) 7))
  else if sample_size = 16 then packH (FS.trunc (FS.mulPow2 sample 15))
  else if sample_size = 24 then .error .notImplementedError
  else if sample_size = 32 then packI (FS.trunc (FS.mulPow2 sample 31))
  else
    match prev with
    | none => .error .unboundLocalError
    | some b => .ok b

/-- C3 counterexample: the encoder truncates and `struct.pack` raises on
out-of-range values — encoding the float `1.0` at width 16 raises
`struct.error` instead of producing the claimed clamped value `32767` (bytes
`[255, 127]`), and likewise at widths 8 and 32. -/
theorem encode_full_scale_raises_struct_error :
    FS.val ⟨1, 0⟩ = 1 ∧
      encodeSampleF 16 ⟨1, 0⟩ none = .error .structError ∧
      encodeSampleF 16 ⟨1, 0⟩ none ≠ .ok [255, 127] ∧
      encodeSampleF 8 ⟨1, 0⟩ none = .error .structError ∧
      encodeSampleF 8 ⟨1, 0⟩ none ≠ .ok [255] ∧
      encodeSampleF 32 ⟨1, 0⟩ none = .error .structError := by
  refine ⟨?_, by decide, by decide, by decide, by decide, by decide⟩
  have h0 : ((0 : ℤ)).toNat = 0 := rfl
  norm_num [FS.val, h0]

/-- C3 (amended): under binary64 semantics the encoder truncates toward zero
(Python `int()`, not rounding) and `struct.pack` raises instead of clamping.
Width 8 first rounds `1 + sample` in binary64 and packs
`int((1 + sample) * 2^7)`: `-1.0 ↦ [0]` and `0.0 ↦ [128]`, while `1.0` — and
even the largest double below `1.0`, namely `1 - 2^-53`, whose `1 + sample`
rounds up to `2.0` and yields 256 — raise `struct.error`; the second-largest,
`1 - 2^-52`, encodes to 255.  Width 16 packs `int(sample * 2^15)` (an exact
shift): `0.0 ↦ 0`, `-1.0 ↦ -32768` (little-endian bytes `[0, 128]`), `1.0`
raises, and the double `403 * 2^-17` — for which `sample * 2^15 = 100.75` —
encodes to 100, truncated rather than rounded to 101.  Width 32:
`-1.0 ↦ -2^31` (bytes `[0, 0, 0, 128]`) and `1.0` raises. -/
theorem encodeSampleF_spec :
    (FS.val ⟨-1, 0⟩ = -1 ∧ FS.val ⟨0, 0⟩ = 0 ∧
      FS.val ⟨9007199254740991, -53⟩ = 1 - (1 / 2 ^ 53 : ℚ) ∧
      FS.val ⟨9007199254740990, -53⟩ = 1 - (1 / 2 ^ 52 : ℚ) ∧
      FS.val ⟨403, -17⟩ * 2 ^ 15 = (100 + 3 / 4 : ℚ)) ∧
    encodeSampleF 8 ⟨-1, 0⟩ none = .ok [0] ∧
    encodeSampleF 8 ⟨0, 0⟩ none = .ok [128] ∧
    encodeSampleF 8 ⟨1, 0⟩ none = .error .structError ∧
    encodeSampleF 8 ⟨9007199254740991, -53⟩ none = .error .structError ∧
    encodeSampleF 8 ⟨9007199254740990, -53⟩ none = .ok [255] ∧
    encodeSampleF 16 ⟨0, 0⟩ none = .ok [0, 0] ∧
    encodeSampleF 16 ⟨-1, 0⟩ none = .ok [0, 128] ∧
    encodeSampleF 16 ⟨1, 0⟩ none = .error .structError ∧
    encodeSampleF 16 ⟨403, -17⟩ none = .ok [100, 0] ∧
    encodeSampleF 32 ⟨-1, 0⟩ none = .ok [0, 0, 0, 128] ∧
    encodeSampleF 32 ⟨1, 0⟩ none = .error .structError := by
  refine ⟨⟨?_, ?_, ?_, ?_, ?_⟩, by decide, by decide, by decide, by decide,
    by decide, by decide, by decide, by decide, by decide, by decide, by decide⟩
  · have h0 : ((0 : ℤ)).toNat = 0 := rfl
    norm_num [FS.val, h0]
  · have h0 : ((0 : ℤ)).toNat = 0 := rfl
    norm_num [FS.val, h0]
  · have h53 : ((53 : ℤ)).toNat = 53 := rfl
    norm_num [FS.val, neg_neg, h53]
  · have h53 : ((53 : ℤ)).toNat = 53 := rfl
    norm_num [FS.val, neg_neg, h53]
  · have h17 : ((17 : ℤ)).toNat = 17 := rfl
    norm_num [FS.val, neg_neg, h17]

theorem encodeSample_eq_unknown (sz : ℤ) (s : ℚ) (prev : Option (List ℕ))
    (h8 : sz ≠ 8) (h16 : sz ≠ 16) (h24 : sz ≠ 24) (h32 : sz ≠ 32) :
    encodeSample sz s prev = (match prev with
      | none => .error .unboundLocalError
      | some b => .ok b) := by
  rw [encodeSample.eq_def, if_neg h8, if_neg h16, if_neg h24, if_neg h32]

/-- C4 counterexample: a width outside `{8, 16, 24, 32}` (here 5) does not
fail with the spec's `InvalidConfiguration` condition — the first sample fails
with an unbound-local error, and a later sample silently reuses the previous
iteration's stale bytes. -/
theorem sample_size_5_not_invalid_configuration :
    encodeSample 5 0 none ≠ .error .invalidConfiguration ∧
      encodeSample 5 0 none = .error .unboundLocalError ∧
      encodeSample 5 0 (some [7]) = .ok [7] := by
  have h1 : encodeSample 5 0 none = .error .unboundLocalError := by
    rw [encodeSample_eq_unknown 5 0 none (by norm_num) (by norm_num) (by norm_num)
      (by norm_num)]
  have h2 : encodeSample 5 0 (some [7]) = .ok [7] := by
    rw [encodeSample_eq_unknown 5 0 (some [7]) (by norm_num) (by norm_num) (by norm_num)
      (by norm_num)]
  exact ⟨by simp [h1], h1, h2⟩

/-- C4 (amended): encoding at `sample_size = 24` fails with `NotImplemented`
as claimed, but a width outside `{8, 16, 24, 32}` (e.g. 5) does not fail with
`InvalidConfiguration`: the first sample fails with an unbound-local error and
any later sample silently reuses the previous stale bytes. -/
theorem sample_size_24_and_unknown (s : ℚ) (prev : Option (List ℕ)) (b : List ℕ) :
    encodeSample 24 s prev = .error .notImplementedError ∧
      encodeSample 5 s none = .error .unboundLocalError ∧
      encodeSample 5 s (some b) = .ok b := by
  refine ⟨?_, ?_, ?_⟩
  · rw [encodeSample.eq_def, if_neg (by norm_num), if_neg (by norm_num), if_pos rfl]
  · rw [encodeSample_eq_unknown 5 s none (by norm_num) (by norm_num) (by norm_num)
      (by norm_num)]
  · rw [encodeSample_eq_unknown 5 s (some b) (by norm_num) (by norm_num) (by norm_num)
      (by norm_num)]

/-! ## Audio nodes and `_get_audio_output_nodes` (audio.py; movie.py lines 99-105)

```python
class Audio(Node):
    def __init__(self, sample_size: int, sample_rate: int, output=False):
        self.sample_size = sample_size
        self.sample_rate = sample_rate
        self.output = output
        self.sample = 0.0

def _get_audio_output_nodes(self) -> list:
    def has_audio(node):
        return isinstance(node, Audio) \\
            and node.output_audio \\
            and node.channels > 0
    return [node for node in self.nodes if has_audio(node)]
```

Attribute access is dynamic, so an audio node is modelled by its instance
attribute dictionary.  Modelled from the spec: the `Node` base class (its
source `node/node.py` is not in the repository snapshot) carries only identity
and the activity interval (§3) and defines no `output_audio`/`channels`
class attributes; moreover `Audio.__init__` never calls `Node.__init__`, so an
`Audio` instance resolves attribute lookups against exactly the four
attributes assigned above.
-/

inductive PyVal where
  | int (i : ℤ)
  | float (q : ℚ)
  | bool (b : Bool)
  | str (s : String)
deriving Repr, DecidableEq

/-- An instance attribute dictionary. -/
abbrev Attrs := List (String × PyVal)

/-- The attributes `Audio.__init__` assigns, in assignment order. -/
def Audio.init (sample_size sample_rate : ℤ) (output : Bool) : Attrs :=
  [("sample_size", .int sample_size), ("sample_rate", .int sample_rate),
    ("output", .bool output), ("sample", .float 0)]

/-- `getattr`: look an attribute up in the instance dictionary; `none` models
an `AttributeError`. -/
def getattr (attrs : Attrs) (name : String) : Option PyVal :=
  (attrs.find? (fun kv => kv.1 == name)).map (fun kv => kv.2)

inductive PyErr where
  /-- `AttributeError` for the named attribute. -/
  | attributeError (name : String)
  /-- A comparison such as `node.channels > 0` applied to a non-int. -/
  | typeError
deriving Repr, DecidableEq

/-- A timeline node: an audio node carrying its instance attributes, or a node
of any non-`Audio` class (for which `isinstance(node, Audio)` is false). -/
inductive PyNode where
  | audio (attrs : Attrs)
  | other
deriving Repr, DecidableEq

/-- Python truthiness of an attribute value. -/
def truthy : PyVal → Bool
  | .int i => i != 0
  | .float q => q != 0
  | .bool b => b
  | .str s => s != ""

/-- `has_audio` (movie.py lines 100-103): `isinstance(node, Audio) and
node.output_audio and node.channels > 0`, with short-circuit evaluation and
`AttributeError` on a missing attribute. -/
def hasAudio : PyNode → Except PyErr Bool
  | .other => .ok false
  | .audio attrs =>
    match getattr attrs "output_audio" with
    | none => .error (.attributeError "output_audio")
    | some v =>
      if truthy v then
        match getattr attrs "channels" with
        | none => .error (.attributeError "channels")
        | some c =>
          match c with
          | .int i => .ok (decide (0 < i))
          | _ => .error .typeError
      else .ok false

/-- `_get_audio_output_nodes` (movie.py line 105): the list comprehension
evaluates `has_audio` left to right and propagates the first error. -/
def getAudioOutputNodes : List PyNode → Except PyErr (List PyNode)
  | [] => .ok []
  | n :: rest =>
    match hasAudio n with
    | .error e => .error e
    | .ok b =>
      match getAudioOutputNodes rest with
      | .error e => .error e
      | .ok tail => .ok (if b then n :: tail else tail)

/-- The per-node audio capture (movie.py line 156 reads `node.samples`). -/
def captureAudio : List PyNode → Except PyErr Unit
  | [] => .ok ()
  | .audio attrs :: rest =>
    match getattr attrs "samples" with
    | none => .error (.attributeError "samples")
    | some _ => captureAudio rest
  | .other :: rest => captureAudio rest

/-- The `_record_frames` loop over an actual node list (exact-clock variant;
the first step is independent of the clock semantics): when the audio-capture
condition fires, the audio-output filter runs and each filtered node's samples
are read; any error aborts the recording. -/
def recordLoopNodes (nodes : List PyNode) (end_time increment : ℚ)
    (frame_rate sample_rate : ℕ) (hinc : 0 < increment) (s : RecState) :
    Except PyErr RecState :=
  if s.current_time ≤ end_time then
    match (if fires increment (sample_rate : ℚ) s.progress then
        match getAudioOutputNodes nodes with
        | .error e => .error e
        | .ok outs => captureAudio outs
      else Except.ok () : Except PyErr Unit) with
    | .error e => .error e
    | .ok _ => recordLoopNodes nodes end_time increment frame_rate sample_rate hinc
        (stepExact increment frame_rate sample_rate s)
  else .ok s
termination_by (⌊(end_time - s.current_time) * increment⌋ + 1).toNat
decreasing_by
  have hne : increment ≠ 0 := ne_of_gt hinc
  have key : (end_time - (stepExact increment frame_rate sample_rate s).current_time)
      * increment = (end_time - s.current_time) * increment - 1 := by
    simp only [stepExact]
    field_simp
    ring
  rw [key, show ((end_time - s.current_time) * increment - 1 : ℚ)
      = (end_time - s.current_time) * increment - (1 : ℤ) by push_cast; ring,
    Int.floor_sub_int]
  have h0 : (0 : ℤ) ≤ ⌊(end_time - s.current_time) * increment⌋ :=
    Int.floor_nonneg.2 (mul_nonneg (by linarith) hinc.le)
  omega

/-- `_record_frames` over a node list. -/
def recordFramesNodes (nodes : List PyNode) (start_time end_time : ℚ)
    (frame_rate sample_rate : ℕ) (hfr : 0 < frame_rate) (hsr : 0 < sample_rate) :
    Except PyErr RecState :=
  recordLoopNodes nodes end_time (lcm frame_rate sample_rate) frame_rate sample_rate
    (lcm_pos frame_rate sample_rate hfr hsr) ⟨start_time, 0, 0, 0⟩

theorem fires_at_zero (increment rate : ℚ) : fires increment rate 0 = true := by
  simp [fires, pymod]

theorem getAudioOutputNodes_attr_error (nodes : List PyNode)
    (hall : ∀ attrs, PyNode.audio attrs ∈ nodes → getattr attrs "output_audio" = none)
    (hsome : ∃ attrs, PyNode.audio attrs ∈ nodes) :
    getAudioOutputNodes nodes = .error (.attributeError "output_audio") := by
  induction nodes with
  | nil => obtain ⟨attrs, h⟩ := hsome; cases h
  | cons n rest ih =>
    cases n with
    | audio attrs =>
      have h1 : getattr attrs "output_audio" = none :=
        hall attrs (List.mem_cons_self _ _)
      rw [getAudioOutputNodes]
      simp [hasAudio, h1]
    | other =>
      obtain ⟨attrs, hmem⟩ := hsome
      have hmem' : PyNode.audio attrs ∈ rest := by
        rcases List.mem_cons.mp hmem with h | h
        · cases h
        · exact h
      rw [getAudioOutputNodes]
      simp [hasAudio,
        ih (fun a ha => hall a (List.mem_cons_of_mem _ ha)) ⟨attrs, hmem'⟩]

/-- C6: `Audio.__init__` defines `output` but never `output_audio` or
`channels`, while the audio-output filter reads `node.output_audio` and
`node.channels`; consequently, for any movie whose nodes include such an audio
node (and all of whose audio nodes are built by `Audio.__init__`, hence lack
`output_audio`), the very first recording step — where the audio-capture
condition fires, at `progress = 0` — fails with an `AttributeError` instead of
capturing any samples. -/
theorem audio_node_attribute_error
    (ss sr : ℤ) (out : Bool) (nodes : List PyNode) (start_time end_time : ℚ)
    (frame_rate sample_rate : ℕ) (hfr : 0 < frame_rate) (hsr : 0 < sample_rate)
    (hall : ∀ attrs, PyNode.audio attrs ∈ nodes → getattr attrs "output_audio" = none)
    (hsome : ∃ attrs, PyNode.audio attrs ∈ nodes)
    (hse : start_time ≤ end_time) :
    getattr (Audio.init ss sr out) "output" = some (.bool out) ∧
      getattr (Audio.init ss sr out) "output_audio" = none ∧
      getattr (Audio.init ss sr out) "channels" = none ∧
      recordFramesNodes nodes start_time end_time frame_rate sample_rate hfr hsr
        = .error (.attributeError "output_audio") := by
  refine ⟨by simp [Audio.init, getattr], by simp [Audio.init, getattr],
    by simp [Audio.init, getattr], ?_⟩
  rw [recordFramesNodes, recordLoopNodes]
  rw [if_pos hse]
  simp [fires_at_zero, getAudioOutputNodes_attr_error nodes hall hsome]

theorem audio_node_attribute_error_witness :
    getattr (Audio.init 16 8000 true) "output_audio" = none ∧
      recordFramesNodes [PyNode.audio (Audio.init 16 8000 true)] 0 1 24 48000
          (by decide) (by decide)
        = .error (.attributeError "output_audio") := by
  have h := audio_node_attribute_error 16 8000 true
    [PyNode.audio (Audio.init 16 8000 true)] 0 1 24 48000 (by decide) (by decide)
    (by
      intro attrs hmem
      simp only [List.mem_singleton] at hmem
      cases hmem
      simp [Audio.init, getattr])
    ⟨Audio.init 16 8000 true, List.mem_singleton.2 rfl⟩
    (by norm_num)
  exact ⟨h.2.1, h.2.2.2⟩

/-! ## `record` (movie.py lines 192-240)

```python
if end_time is None:
    end_time = self.duration
close_file = False
if file is None:
    file = open(filename, 'wb')      # creates/truncates the destination
    close_file = True
format = filename[filename.rfind('.') + 1:]
tmp = tempfile.mkdtemp(prefix='ved-')
pixel_data, audio_data = self._record_frames(...)   # may raise
cmd = self._prepare_record_command(...)             # writes the scratch wavs
proc = subprocess.Popen(...)
stdout, stderr = proc.communicate(input=pixel_data.getvalue())
rmtree(tmp)
if stderr:
    raise RuntimeError(...)
file.write(bytes(stdout))
if close_file:
    file.close()
```

The control flow is modelled as the sequence of externally visible events,
parameterised by whether a writable `file` object was passed, whether node
evaluation raises inside `_record_frames`, and whether the encoder produced
stderr output.
-/

inductive RecEvent where
  /-- `open(filename, 'wb')`: creates or truncates the destination. -/
  | openDest
  /-- `tempfile.mkdtemp`. -/
  | mkScratch
  /-- `_record_frames` returns: the in-memory streams are assembled. -/
  | assembleStreams
  /-- `_record_frames` raises a node-evaluation failure. -/
  | nodeEvalError
  /-- `_prepare_record_command` writes the per-node scratch wav files. -/
  | writeScratch
  /-- `Popen` + `communicate`: the external encoder runs. -/
  | runEncoder
  /-- `rmtree(tmp)`. -/
  | rmScratch
  /-- `raise RuntimeError` on non-empty stderr. -/
  | encoderError
  /-- `file.write(bytes(stdout))`. -/
  | writeDest
  /-- `file.close()`. -/
  | closeDest
deriving Repr, DecidableEq

/-- The events of one `record` call, in program order (movie.py 213-240). -/
def recordTrace (fileProvided nodeEvalFails encoderStderr : Bool) : List RecEvent :=
  (if fileProvided then [] else [.openDest]) ++ [.mkScratch] ++
    (if nodeEvalFails then [.nodeEvalError]
     else [.assembleStreams, .writeScratch, .runEncoder, .rmScratch] ++
       (if encoderStderr then [.encoderError]
        else [.writeDest] ++ (if fileProvided then [] else [.closeDest])))

inductive DestState where
  | untouched
  | truncated
  | written
deriving Repr, DecidableEq

/-- Destination-file state after a sequence of events: `open(..., 'wb')`
truncates it to empty, `file.write` fills it with the full encoder output. -/
def destAfter (events : List RecEvent) : DestState :=
  events.foldl (fun st e =>
    match e with
    | .openDest => .truncated
    | .writeDest => .written
    | _ => st) .untouched

/-- C7 counterexample: in a `record(filename, ...)` call the destination is
opened and truncated *before* the streams are assembled, so when the encoder
fails (non-empty stderr) the destination is left as an empty truncated file —
neither fully written nor untouched, contradicting the all-or-nothing claim. -/
theorem record_truncates_destination_before_encoding :
    destAfter (recordTrace false false true) = .truncated ∧
      ¬ (destAfter (recordTrace false false true) = .written ∨
          destAfter (recordTrace false false true) = .untouched) ∧
      recordTrace false false false
        = [.openDest, .mkScratch, .assembleStreams, .writeScratch, .runEncoder,
            .rmScratch, .writeDest, .closeDest] ∧
      List.indexOf RecEvent.openDest (recordTrace false false false)
        < List.indexOf RecEvent.assembleStreams (recordTrace false false false) := by
  decide

/-- C7 (amended): `record` opens (and truncates) the destination *before*
recording begins, so on any failure the destination is left as an empty
truncated file rather than untouched; the destination is written only after
the external encoder completes with empty stderr (and then the full output is
written). -/
theorem record_write_iff_encoder_success :
    ∀ nodeEvalFails encoderStderr : Bool,
      (RecEvent.writeDest ∈ recordTrace false nodeEvalFails encoderStderr
        ↔ (nodeEvalFails = false ∧ encoderStderr = false)) ∧
      destAfter (recordTrace false nodeEvalFails encoderStderr)
        = (if nodeEvalFails = false ∧ encoderStderr = false then .written
           else .truncated) ∧
      (recordTrace false nodeEvalFails encoderStderr).head? = some .openDest := by
  decide

/-- C8 counterexample: when node evaluation fails inside `_record_frames`, the
exception propagates out of `record` before `rmtree(tmp)` runs — the scratch
directory is created but never removed on that exit path. -/
theorem scratch_leaked_on_node_failure :
    RecEvent.mkScratch ∈ recordTrace false true false ∧
      RecEvent.rmScratch ∉ recordTrace false true false := by decide

/-- C8 (amended): the scratch directory is created before the external encoder
runs and is removed after it on both encoder success and encoder failure
(`rmtree` precedes the stderr check); but on a node-evaluation failure
`record` raises before reaching `rmtree`, leaking the scratch directory. -/
theorem scratch_cleanup_except_node_failure :
    ∀ fileProvided encoderStderr : Bool,
      RecEvent.rmScratch ∈ recordTrace fileProvided false encoderStderr ∧
      RecEvent.rmScratch ∉ recordTrace fileProvided true encoderStderr ∧
      List.indexOf RecEvent.mkScratch (recordTrace fileProvided false encoderStderr)
        < List.indexOf RecEvent.runEncoder (recordTrace fileProvided false encoderStderr) ∧
      List.indexOf RecEvent.runEncoder (recordTrace fileProvided false encoderStderr)
        < List.indexOf RecEvent.rmScratch (recordTrace fileProvided false encoderStderr) := by
  decide

/-! ## `screenshot` (movie.py lines 83-97)

```python
def screenshot(self, time, filename, file=None):
    """
    :param float time: the time in seconds to take a screenshot at
    ...
    """
    self.tick()
    pyglet.image.get_buffer_manager().get_color_buffer().get_image_data() \\
        .save(filename=filename, file=file)
```

The docstring documents `time` as "the time in seconds to take a screenshot
at", but the body never assigns `self.current_time` from it: `tick()`
evaluates the nodes active at the movie's *current* clock and the saved frame
is the composition at that clock value.
-/

structure MovieClock where
  current_time : ℚ
deriving Repr, DecidableEq

/-- `_process_nodes` (movie.py lines 40-43): the nodes a tick evaluates are
those whose interval `[start_time, end_time)` contains the current clock. -/
def processNodes (nodes : List (ℚ × ℚ)) (t : ℚ) : List (ℚ × ℚ) :=
  nodes.filter (fun iv => decide (iv.1 ≤ t) && decide (t < iv.2))

/-- `screenshot`: ticks once and saves the frame.  Returns the movie state,
the nodes the tick evaluated, and the clock value at which the saved frame was
composited.  The `time` parameter is accepted but never used. -/
def Movie.screenshot (m : MovieClock) (nodes : List (ℚ × ℚ)) (time : ℚ) :
    MovieClock × List (ℚ × ℚ) × ℚ :=
  (m, processNodes nodes m.current_time, m.current_time)

/-- C10: `screenshot(time, destination)` does *not* advance the virtual clock
to `time` — the `time` parameter is unused, so the result is independent of
it, and the frame is composited at the movie's current clock.  Evaluated at
the failing input: a movie at clock `0` with one node active on `[5, 6)`,
screenshotted at `time = 5`, evaluates no nodes and captures the frame at
clock `0`, not `5` — contradicting the claim and the function's own
docstring. -/
theorem screenshot_ignores_time :
    (∀ (m : MovieClock) (nodes : List (ℚ × ℚ)) (t t' : ℚ),
      Movie.screenshot m nodes t = Movie.screenshot m nodes t') ∧
      (Movie.screenshot ⟨0⟩ [(5, 6)] 5).2.1 = [] ∧
      (Movie.screenshot ⟨0⟩ [(5, 6)] 5).2.2 = 0 ∧
      (0 : ℚ) ≠ 5 := by
  refine ⟨fun m nodes t t' => rfl, ?_, rfl, by norm_num⟩
  show processNodes [(5, 6)] 0 = []
  norm_num [processNodes]

/-! ## `_prepare_record_command` (movie.py lines 115-134)

```python
cmd = 'ffmpeg -r {} -f png_pipe -i pipe: '.format(frame_rate)
audio_id = 0
for node, samples in audio_data.items():
    clip_path = os.path.join(tmp, 'audio_{}.wav'.format(audio_id))
    self._write_audio_data(node, samples, sample_rate, clip_path)
    cmd += '-itsoffset {} -i {} '.format(node.start_time, clip_path)
    audio_id += 1
cmd += '-y -r {} -ar {} -f {} '.format(frame_rate, sample_rate, format)
if len(ffmpeg_options) > 0:
    cmd += ' '.join(ffmpeg_options) + ' '
cmd += 'pipe: -v error'
```

The only node field the command uses is `start_time`, so the audio nodes are
passed as the list of their start times in buffer insertion order; `fmt`
abstracts Python's `str()` rendering of a float.
-/

/-- Decimal digit string of a natural number (`'{}'.format(n)` for an int). -/
def decRepr (n : ℕ) : String :=
  if n = 0 then "0"
  else ⟨((Nat.digits 10 n).reverse.map (fun d => Char.ofNat (d + 48)))⟩

/-- `os.path.join(tmp, 'audio_{}.wav'.format(audio_id))`. -/
def audioPath (tmp : String) (audio_id : ℕ) : String :=
  tmp ++ "/audio_" ++ decRepr audio_id ++ ".wav"

/-- The loop of `_prepare_record_command`: one `-itsoffset {} -i {} ` segment
per audio node, with `audio_id` counting up from `base`. -/
def audioInputsPart (fmt : ℚ → String) (tmp : String) : List ℚ → ℕ → String
  | [], _ => ""
  | t :: rest, base =>
    "-itsoffset " ++ fmt t ++ " -i " ++ audioPath tmp base ++ " "
      ++ audioInputsPart fmt tmp rest (base + 1)

/-- `_prepare_record_command` (the `_write_audio_data` side effect is the
`writeScratch` event of `recordTrace`). -/
def prepareRecordCommand (fmt : ℚ → String) (starts : List ℚ)
    (frame_rate sample_rate : ℕ) (format : String) (ffmpeg_options : List String)
    (tmp : String) : String :=
  "ffmpeg -r " ++ decRepr frame_rate ++ " -f png_pipe -i pipe: "
    ++ audioInputsPart fmt tmp starts 0
    ++ ("-y -r " ++ decRepr frame_rate ++ " -ar " ++ decRepr sample_rate
        ++ " -f " ++ format ++ " "
      ++ (if 0 < ffmpeg_options.length
          then String.intercalate " " ffmpeg_options ++ " " else "")
      ++ "pipe: -v error")

theorem digitChar_inj : ∀ d1 : ℕ, d1 < 10 → ∀ d2 : ℕ, d2 < 10 →
    Char.ofNat (d1 + 48) = Char.ofNat (d2 + 48) → d1 = d2 := by decide

theorem map_digitChar_cancel : ∀ l : List ℕ, (∀ d ∈ l, d < 10) →
    (l.map (fun d => Char.ofNat (d + 48))).map (fun c => c.toNat - 48) = l := by
  intro l hl
  induction l with
  | nil => rfl
  | cons d rest ih =>
    have hd : d < 10 := hl d (List.mem_cons_self _ _)
    have hcancel : ∀ d : ℕ, d < 10 → (Char.ofNat (d + 48)).toNat - 48 = d := by decide
    simp only [List.map_cons, hcancel d hd]
    rw [ih (fun x hx => hl x (List.mem_cons_of_mem _ hx))]

theorem decRepr_injective : Function.Injective decRepr := by
  intro a b h
  have key : ∀ n : ℕ, n ≠ 0 →
      ((Nat.digits 10 n).reverse.map (fun d => Char.ofNat (d + 48))).map
          (fun c => c.toNat - 48)
        = (Nat.digits 10 n).reverse := by
    intro n _
    exact map_digitChar_cancel _ (fun d hd =>
      Nat.digits_lt_base (by norm_num) (List.mem_reverse.1 hd))
  have hdig : ∀ n m : ℕ, Nat.digits 10 n = Nat.digits 10 m → n = m := by
    intro n m hnm
    rw [← Nat.ofDigits_digits 10 n, hnm, Nat.ofDigits_digits]
  by_cases ha : a = 0 <;> by_cases hb : b = 0
  · omega
  · exfalso
    rw [decRepr, if_pos ha, decRepr, if_neg hb] at h
    have hdata : ["0".data] = [((Nat.digits 10 b).reverse.map
        (fun d => Char.ofNat (d + 48)))] := by
      simpa using congrArg (fun s : String => [s.data]) h
    have : (Nat.digits 10 b).reverse.map (fun d => Char.ofNat (d + 48))
        = ['0'] := by
      have := List.head_eq_of_cons_eq hdata
      exact this.symm
    have hrec := congrArg (List.map (fun c : Char => c.toNat - 48)) this
    rw [key b hb] at hrec
    have : Nat.digits 10 b = [0] := by
      have h0 : ('0'.toNat - 48) = 0 := by decide
      have := hrec
      simp only [List.map_cons, List.map_nil, h0] at this
      have := congrArg List.reverse this
      simpa using this
    have : b = 0 := by
      have := congrArg (Nat.ofDigits 10) this
      rw [Nat.ofDigits_digits] at this
      simpa using this
    exact hb this
  · exfalso
    rw [decRepr, if_neg ha, decRepr, if_pos hb] at h
    have : (Nat.digits 10 a).reverse.map (fun d => Char.ofNat (d + 48))
        = ['0'] := by
      have := congrArg String.data h
      simpa using this
    have hrec := congrArg (List.map (fun c : Char => c.toNat - 48)) this
    rw [key a ha] at hrec
    have : Nat.digits 10 a = [0] := by
      have h0 : ('0'.toNat - 48) = 0 := by decide
      simp only [List.map_cons, List.map_nil, h0] at hrec
      have := congrArg List.reverse hrec
      simpa using this
    have : a = 0 := by
      have := congrArg (Nat.ofDigits 10) this
      rw [Nat.ofDigits_digits] at this
      simpa using this
    exact ha this
  · rw [decRepr, if_neg ha, decRepr, if_neg hb] at h
    have hdata := congrArg String.data h
    simp only at hdata
    have hrec := congrArg (List.map (fun c : Char => c.toNat - 48)) hdata
    rw [key a ha, key b hb] at hrec
    have := congrArg List.reverse hrec
    simp only [List.reverse_reverse] at this
    exact hdig a b this

theorem audioPath_injective (tmp : String) : Function.Injective (audioPath tmp) := by
  intro i j h
  apply decRepr_injective
  have hdata := congrArg String.data h
  simp only [audioPath, String.data_append, List.append_assoc] at hdata
  have h1 := List.append_cancel_left hdata
  have h2 := List.append_cancel_left h1
  have h3 := List.append_cancel_right h2
  exact String.ext h3

theorem within_append_left {α : Type} {l b : List α} (a : List α)
    (h : l <:+: b) : l <:+: a ++ b := by
  obtain ⟨s, t, hst⟩ := h
  exact ⟨a ++ s, t, by rw [← hst]; simp⟩

theorem within_append_right {α : Type} {l a : List α} (b : List α)
    (h : l <:+: a) : l <:+: a ++ b := by
  obtain ⟨s, t, hst⟩ := h
  exact ⟨s, t ++ b, by rw [← hst]; simp⟩

theorem audioInputsPart_contains_segment (fmt : ℚ → String) (tmp : String) :
    ∀ (starts : List ℚ) (base : ℕ) (i : Fin starts.length),
      ("-itsoffset " ++ fmt (starts.get i) ++ " -i "
          ++ audioPath tmp (base + i.1) ++ " ").data
        <:+: (audioInputsPart fmt tmp starts base).data
  | [], _, i => absurd i.2 (by simp)
  | t :: rest, base, ⟨0, h⟩ => by
    rw [audioInputsPart]
    refine ⟨[], (audioInputsPart fmt tmp rest (base + 1)).data, ?_⟩
    simp [String.data_append]
  | t :: rest, base, ⟨i + 1, h⟩ => by
    rw [audioInputsPart]
    have ih := audioInputsPart_contains_segment fmt tmp rest (base + 1)
      ⟨i, by simpa using Nat.lt_of_succ_lt_succ h⟩
    have harith : base + 1 + i = base + (i + 1) := by omega
    rw [harith] at ih
    simp only [List.get_cons_succ] at ih ⊢
    simp only [String.data_append]
    refine within_append_left _ ?_
    simpa [String.data_append] using ih

/-- C9: the constructed external-encoder command declares, for the `i`-th
audio output node, the segment `-itsoffset <start_time_i> -i <tmp>/audio_<i>.wav `
— that node\'s scratch file, immediately preceded by an `-itsoffset` equal to
that node\'s `start_time` — and the scratch paths of distinct nodes are
distinct (`audio_id` increments per node), so mid-timeline tracks are
silence-padded by the encoder via `itsoffset`, not by generated zero
samples. -/
theorem prepare_record_command_offsets (fmt : ℚ → String) (starts : List ℚ)
    (frame_rate sample_rate : ℕ) (format : String) (ffmpeg_options : List String)
    (tmp : String) (i : Fin starts.length) :
    ("-itsoffset " ++ fmt (starts.get i) ++ " -i " ++ audioPath tmp i.1 ++ " ").data
        <:+: (prepareRecordCommand fmt starts frame_rate sample_rate format
          ffmpeg_options tmp).data
      ∧ Function.Injective (audioPath tmp) := by
  refine ⟨?_, audioPath_injective tmp⟩
  have h := audioInputsPart_contains_segment fmt tmp starts 0 i
  rw [Nat.zero_add] at h
  rw [prepareRecordCommand]
  simp only [String.data_append, List.append_assoc] at h ⊢
  exact within_append_left _ (within_append_left _
    (within_append_left _ (within_append_right _ h)))

theorem prepare_record_command_offsets_witness :
    ("-itsoffset " ++ toString (2 : ℚ) ++ " -i "
        ++ audioPath "/tmp/ved-x" 0 ++ " ").data
      <:+: (prepareRecordCommand (fun q => toString q) [2] 8000 8000 "mp4" []
        "/tmp/ved-x").data := by
  have h := prepare_record_command_offsets (fun q => toString q) [2] 8000 8000
    "mp4" [] "/tmp/ved-x" ⟨0, by simp⟩
  exact h.1

end Ved
